import Mathlib

/-!
Verification of the SMA-crossover backtesting engine.

This file embeds the core of the repository in Lean 4:

* `SMACrossover` and `rollingMean`/`crossSignal`/`generateSignals` embed
  `src/strategies/sma_crossover.py` (`__init__`, the pandas
  `rolling(window=w).mean()` feature computation, and
  `_generate_signals_numba`).
* `codeStep`/`runAux`/`runPair` embed the per-bar simulation loop of
  `TradingEnvironment.run` in `src/core/trading_env.py` (lines 48-103),
  including the backward scan of the trade history for the most recent
  BUY that the SELL branch performs.  The loop's only exception path is
  the `StopIteration` that `next(...)` would raise if no BUY record
  existed; it is modelled as the `SimError` value `noEntry` and proved
  unreachable (`runAux_ok`).  Prices and cash are modelled as rationals
  (`ℚ`): the row values are numpy floats, which carry exact rational
  values and agree with `ℚ` wherever every value stays finite — which
  holds on the spec's domain of positive closes.  At a zero close a BUY
  divides by zero; numpy then returns `inf` with a RuntimeWarning (no
  exception) and the loop continues.  Non-finite values lie outside
  this rational embedding (`cash / 0` is `0` in `ℚ`), and no claim,
  witness or counterexample below exercises a division by zero.
* `runAll` embeds the outer loop of `TradingEnvironment.run` over the
  nested `{symbol: {timeframe: df}}` dictionary: pairs are simulated in
  order; the loop has no exception handling, and since its body raises
  nothing, every pair completes and all results are reported.
* `pctChanges`/`listMean`/`sampleVar`/`sharpe`/`totalReturn` embed the
  statistics of `TradingEnvironment.evaluate_performance` /
  `overall_strategy_returns` (pandas `pct_change().dropna()`, sample
  standard deviation with `ddof=1`, and the hard-coded annualization
  factor `252 * 24 * 4`).  The two NaN outcomes of the Python code
  (the explicit `float('nan')` branch when `returns.std() == 0`, and
  NaN propagation through `mean/std` when fewer than two returns
  exist, where `returns.std()` itself is NaN) are both modelled as
  `none`.
-/

namespace AlgoTrading

/-- Trade direction, the `"action"` field of a trade record. -/
inductive Action where
  | BUY
  | SELL

/-- One record of the `history` list built by `TradingEnvironment.run`.
The Python dict keys `datetime, action, price, position_size, pnl,
cumulative_equity, interpolated_equity` become fields; the pandas
datetime index is modelled by the bar's position `ℕ` in the series. -/
structure Trade where
  datetime : ℕ
  action : Action
  price : ℚ
  position_size : ℚ
  pnl : ℚ
  cumulative_equity : ℚ
  interpolated_equity : ℚ

/-- The mutable loop state of `TradingEnvironment.run` for one
(symbol, timeframe) pair: `cash`, `position`, the trade `history`, and
the accumulated `equity_curve` (here `equity`). -/
structure SimState where
  cash : ℚ
  position : ℚ
  history : List Trade
  equity : List (ℕ × ℚ)

/-- The only exception the simulation loop could raise: `noEntry`
models the `StopIteration` that
`next(t for t in reversed(history) if t["action"] == "BUY")` would
raise if no BUY record existed.  It is proved unreachable
(`runAux_ok`): a positive position implies a BUY is in the history. -/
inductive SimError where
  | noEntry

/-- Boolean test for `t["action"] == "BUY"`. -/
def isBuy (t : Trade) : Bool :=
  match t.action with
  | .BUY => true
  | .SELL => false

/-- The backward scan `next(t for t in reversed(history) if
t["action"] == "BUY")` of `TradingEnvironment.run` line 81. -/
def findLastBuy (h : List Trade) : Option Trade :=
  h.reverse.find? isBuy

/-- One iteration of the `for index, row in df.iterrows()` loop of
`TradingEnvironment.run` (lines 58-93): record pre-transition equity,
then either enter (signal `1` while `position == 0`), exit (signal `-1`
while `position > 0`), or do nothing.  The entry size `cash / price`
is rational division, which matches the source's numpy float division
at every nonzero close; at a zero close numpy returns `inf` (with a
RuntimeWarning, no exception) and the loop continues — that non-finite
continuation is outside this rational embedding (`ℚ` gives
`cash / 0 = 0`), and nothing proved below relies on this input. -/
def codeStep (idx : ℕ) (sig : ℤ) (price : ℚ) (s : SimState) :
    Except SimError SimState :=
  let current_equity := if 0 < s.position then s.position * price else s.cash
  let s0 : SimState := { s with equity := s.equity ++ [(idx, current_equity)] }
  if sig = 1 ∧ s.position = 0 then
    let pos := s0.cash / price
    .ok { s0 with
            position := pos
            cash := 0
            history := s0.history ++
              [⟨idx, .BUY, price, pos, 0, 0, current_equity⟩] }
  else if sig = -1 ∧ 0 < s.position then
    match findLastBuy s0.history with
    | none => .error .noEntry
    | some entry =>
      let proceeds := s0.position * price
      let pnl := proceeds - entry.position_size * entry.price
      .ok { s0 with
            cash := proceeds
            position := 0
            history := s0.history ++
              [⟨idx, .SELL, price, entry.position_size, pnl, proceeds,
                proceeds⟩] }
  else .ok s0

/-- The whole bar loop of `TradingEnvironment.run`, threading the loop
state through `codeStep`; an exception aborts the loop. -/
def runAux : List (ℤ × ℚ) → ℕ → SimState → Except SimError SimState
  | [], _, s => .ok s
  | (sig, price) :: rest, idx, s =>
    match codeStep idx sig price s with
    | .error e => .error e
    | .ok s2 => runAux rest (idx + 1) s2

/-- Loop state before the first bar: `cash = self.cash`, `position = 0`,
empty `history` and `equity_curve` (lines 54-57). -/
def initState (cash0 : ℚ) : SimState :=
  ⟨cash0, 0, [], []⟩

/-- Line 94: `final_value = cash if position == 0 else
position * df.iloc[-1]['close']`.  The `getD 0` default is unreachable:
a nonzero position implies at least one bar exists. -/
def finalValue (s : SimState) (bars : List (ℤ × ℚ)) : ℚ :=
  if s.position = 0 then s.cash
  else s.position * ((bars.getLast?).map Prod.snd).getD 0

/-- The per-pair outcome stored in `self.results[symbol][timeframe]`
(lines 98-102). -/
structure PairResult where
  history : List Trade
  final_value : ℚ
  equity_curve : List (ℕ × ℚ)

/-- Simulation of one (symbol, timeframe) pair: the body of the two
outer `for` loops of `TradingEnvironment.run`.  A bar is a
(signal, close) pair. -/
def runPair (cash0 : ℚ) (bars : List (ℤ × ℚ)) : Except SimError PairResult :=
  (runAux bars 0 (initState cash0)).map
    fun s => ⟨s.history, finalValue s bars, s.equity⟩

/-- The outer loops of `TradingEnvironment.run` over all
(symbol, timeframe) pairs, in insertion order.  There is no
`try/except` in the Python loop, so the first exception propagates and
the remaining pairs are never simulated. -/
def runAll (cash0 : ℚ) (pairs : List (List (ℤ × ℚ))) :
    Except SimError (List PairResult) :=
  match pairs with
  | [] => .ok []
  | p :: ps =>
    match runPair cash0 p with
    | .error e => .error e
    | .ok r =>
      match runAll cash0 ps with
      | .error e => .error e
      | .ok rs => .ok (r :: rs)

/-- Loop state of `TradingEnvironment.run` just before bar `k` is
processed (the state after the first `k` bars). -/
def stateAt (cash0 : ℚ) (bars : List (ℤ × ℚ)) (k : ℕ) :
    Except SimError SimState :=
  runAux (bars.take k) 0 (initState cash0)

/-- The pre-transition equity recorded for a bar (lines 61-66):
`position * price` if `position > 0`, else `cash`. -/
def preEquity (s : SimState) (price : ℚ) : ℚ :=
  if 0 < s.position then s.position * price else s.cash

/-- The constructor `SMACrossover.__init__` stores both windows; its
body is two attribute assignments and contains no validation and no
`raise`, so construction is modelled as total (it never fails). -/
structure SMACrossover where
  fast : ℤ
  slow : ℤ

/-- Construction of the signal generator, `SMACrossover(fast, slow)`.
Modelled in `Except` to express whether construction can raise: the
Python `__init__` has no validation, so the result is always `ok`. -/
def mkSMACrossover (fast slow : ℤ) : Except Unit SMACrossover :=
  .ok ⟨fast, slow⟩

/-- Pandas `series.rolling(window=w).mean()` on the close column
(`sma_crossover.py` lines 38-39): entry `i` is the mean of the `w`
values ending at `i` inclusive, `NaN` (here `none`) for `i < w - 1`.
Pandas rejects `w = 0` before computing; the `0 < w` guard keeps the
definition total (all uses have `0 < w`). -/
def rollingMean (w : ℕ) (xs : List ℚ) : List (Option ℚ) :=
  (List.range xs.length).map fun i =>
    if 0 < w ∧ w ≤ i + 1 then
      some (((xs.drop (i + 1 - w)).take w).sum / w)
    else none

/-- The per-bar comparison of `_generate_signals_numba` (lines 15-23):
`0` if either average is NaN, else `1` if `fast > slow`, `-1` if
`fast < slow`, `0` on ties. -/
def crossSignal : Option ℚ → Option ℚ → ℤ
  | some f, some s => if s < f then 1 else if f < s then -1 else 0
  | _, _ => 0

/-- The `df['signal']` column produced by `SMACrossover.generate_signals`
for one series of closes. -/
def generateSignals (fast slow : ℕ) (closes : List ℚ) : List ℤ :=
  List.zipWith crossSignal (rollingMean fast closes) (rollingMean slow closes)

/-- Whole pipeline for one series: generate signals, then simulate. -/
def pipeline (fast slow : ℕ) (cash0 : ℚ) (closes : List ℚ) :
    Except SimError PairResult :=
  runPair cash0 (List.zip (generateSignals fast slow closes) closes)

/-- Pandas `equity_series.pct_change().dropna()`
(`trading_env.py` line 138): consecutive-pair returns
`equity[i] / equity[i-1] - 1`.  Rational division by zero yields `0`
where pandas floats would yield `inf`; all claims use this on curves of
positive equity values, where the two agree. -/
def pctChanges (vals : List ℚ) : List ℚ :=
  List.zipWith (fun a b => b / a - 1) vals vals.tail

/-- Pandas `returns.mean()`: sum over length (0/0 = 0 stands in for the
NaN mean of an empty series; `sharpe` never uses it there). -/
def listMean (xs : List ℚ) : ℚ :=
  xs.sum / (xs.length : ℚ)

/-- Pandas `returns.std() ** 2` with the default `ddof=1`: sample
variance `Σ (x - mean)² / (n - 1)`.  For `n ≤ 1` pandas yields NaN;
here the rational quotient degenerates to `0` and `sharpe` routes those
lengths to the sentinel explicitly. -/
def sampleVar (xs : List ℚ) : ℚ :=
  ((xs.map fun x => (x - listMean xs) ^ 2).sum) / ((xs.length : ℚ) - 1)

/-- Pandas `returns.std()` with `ddof=1`. -/
noncomputable def sampleStd (xs : List ℚ) : ℝ :=
  Real.sqrt (sampleVar xs)

/-- The Sharpe computation of `trading_env.py` lines 20 and 141:
`(returns.mean() / returns.std()) * (252 * 24 * 4) ** 0.5 if
returns.std() != 0 else float('nan')`, with the annualization factor
written exactly as in the source.  `none` models NaN; it arises from
the explicit else-branch (`std == 0`) and from NaN propagation when
fewer than two returns exist (there `returns.std()` is NaN, the
condition `NaN != 0` holds, and `mean/std` is NaN). -/
noncomputable def sharpe (vals : List ℚ) : Option ℝ :=
  let rs := pctChanges vals
  if rs.length < 2 ∨ sampleVar rs = 0 then none
  else
    some (((listMean rs : ℚ) : ℝ) / sampleStd rs * Real.sqrt (252 * 24 * 4))

/-- The same formula with the annualization factor `periodsPerYear` as a
parameter, as the spec describes it; used to compare the hard-coded
code behaviour against the spec's configurable one. -/
noncomputable def sharpeWithPeriods (p : ℝ) (vals : List ℚ) : Option ℝ :=
  let rs := pctChanges vals
  if rs.length < 2 ∨ sampleVar rs = 0 then none
  else some (((listMean rs : ℚ) : ℝ) / sampleStd rs * Real.sqrt p)

/-- Line 139: `total_return = equity_series.iloc[-1] / equity_series.iloc[0] - 1`
(only evaluated on nonempty curves; the `getD` defaults are
unreachable there). -/
def totalReturn (vals : List ℚ) : ℚ :=
  (vals.getLast?).getD 0 / (vals.head?).getD 0 - 1

/-- Modelled from the spec (section 4.2): one transition of the
portfolio state machine in which the open position's entry price is
part of the simulator state (`entryPrice`, the extra `ℚ` component)
and the SELL branch computes `pnl = proceeds - size * entryPrice` and
records the currently held `size`, instead of scanning the trade
history for the most recent BUY as the code does.  Identical to
`codeStep` in every other respect. -/
def specStep (idx : ℕ) (sig : ℤ) (price : ℚ) (s : SimState) (ep : ℚ) :
    Except SimError (SimState × ℚ) :=
  let current_equity := if 0 < s.position then s.position * price else s.cash
  let s0 : SimState := { s with equity := s.equity ++ [(idx, current_equity)] }
  if sig = 1 ∧ s.position = 0 then
    let pos := s0.cash / price
    .ok ({ s0 with
             position := pos
             cash := 0
             history := s0.history ++
               [⟨idx, .BUY, price, pos, 0, 0, current_equity⟩] }, price)
  else if sig = -1 ∧ 0 < s.position then
    let proceeds := s0.position * price
    let pnl := proceeds - s0.position * ep
    .ok ({ s0 with
           cash := proceeds
           position := 0
           history := s0.history ++
             [⟨idx, .SELL, price, s0.position, pnl, proceeds, proceeds⟩] }, ep)
  else .ok (s0, ep)

/-- The bar loop driven by `specStep`, threading the entry price. -/
def specRunAux : List (ℤ × ℚ) → ℕ → SimState → ℚ → Except SimError (SimState × ℚ)
  | [], _, s, ep => .ok (s, ep)
  | (sig, price) :: rest, idx, s, ep =>
    match specStep idx sig price s ep with
    | .error e => .error e
    | .ok (s2, ep2) => specRunAux rest (idx + 1) s2 ep2

/-- Per-pair simulation by the entry-price state machine. -/
def specRunPair (cash0 : ℚ) (bars : List (ℤ × ℚ)) : Except SimError PairResult :=
  (specRunAux bars 0 (initState cash0) 0).map
    fun p => ⟨p.1.history, finalValue p.1 bars, p.1.equity⟩

/-- Simulation-state invariant relating the code's history scan to the
entry-price ghost state: whenever a position is held, the most recent
BUY record in the history is the trade that opened it — its recorded
size is the held size and its price is the entry price. -/
def Inv (s : SimState) (ep : ℚ) : Prop :=
  0 < s.position → ∃ e, findLastBuy s.history = some e ∧
    e.position_size = s.position ∧ e.price = ep

/-- Simulation-state invariant behind trade alternation (maintained
when the initial cash and every close are positive): the log
alternates and starts with BUY, and the position state matches the
log's tail — flat with positive cash and a log ending in SELL (or
empty), or a positive position with a log ending in BUY. -/
def AltInv (s : SimState) : Prop :=
  List.Chain' (· ≠ ·) (s.history.map Trade.action) ∧
  (∀ t, s.history.head? = some t → t.action = Action.BUY) ∧
  ((s.position = 0 ∧ 0 < s.cash ∧
      ∀ t, s.history.getLast? = some t → t.action = Action.SELL) ∨
   (0 < s.position ∧
      ∃ t, s.history.getLast? = some t ∧ t.action = Action.BUY))

/-! Helper lemmas. -/

lemma findLastBuy_concat (h : List Trade) (t : Trade) :
    findLastBuy (h ++ [t]) = if isBuy t then some t else findLastBuy h := by
  cases hb : isBuy t <;>
    simp [findLastBuy, List.reverse_append, List.find?_cons, hb]

lemma initInv (cash0 : ℚ) : Inv (initState cash0) 0 := by
  intro hpos
  simp [initState] at hpos

lemma stepMaster (idx : ℕ) (sig : ℤ) (price : ℚ) (s : SimState) (ep : ℚ)
    (hInv : Inv s ep) :
    codeStep idx sig price s = (specStep idx sig price s ep).map Prod.fst ∧
    ∀ s2 ep2, specStep idx sig price s ep = .ok (s2, ep2) → Inv s2 ep2 := by
  by_cases h1 : sig = 1 ∧ s.position = 0
  · refine ⟨by simp [codeStep, specStep, h1, Except.map], ?_⟩
    intro s2 ep2 heq
    simp [specStep, h1] at heq
    obtain ⟨hs2, hep2⟩ := heq
    subst hs2 hep2
    intro hpos
    refine ⟨⟨idx, .BUY, price, s.cash / price, 0, 0, s.cash⟩, ?_, rfl, rfl⟩
    simp [findLastBuy_concat, isBuy]
  · by_cases h2 : sig = -1 ∧ 0 < s.position
    · obtain ⟨e, he, hsize, hprice⟩ := hInv h2.2
      refine ⟨?_, ?_⟩
      · simp [codeStep, specStep, h1, h2, he, Except.map, hsize, hprice]
      · intro s2 ep2 heq
        simp [specStep, h1, h2] at heq
        obtain ⟨hs2, hep2⟩ := heq
        subst hs2 hep2
        intro hpos
        simp at hpos
    · refine ⟨by simp [codeStep, specStep, h1, h2, Except.map], ?_⟩
      intro s2 ep2 heq
      simp [specStep, h1, h2] at heq
      obtain ⟨hs2, hep2⟩ := heq
      subst hs2 hep2
      intro hpos
      simp at hpos ⊢
      obtain ⟨e, he, h3, h4⟩ := hInv hpos
      exact ⟨e, he, h3, h4⟩

lemma runMaster (bars : List (ℤ × ℚ)) : ∀ (idx : ℕ) (s : SimState) (ep : ℚ),
    Inv s ep →
    runAux bars idx s = (specRunAux bars idx s ep).map Prod.fst ∧
    ∀ s2 ep2, specRunAux bars idx s ep = .ok (s2, ep2) → Inv s2 ep2 := by
  induction bars with
  | nil =>
    intro idx s ep hInv
    refine ⟨by simp [runAux, specRunAux, Except.map], ?_⟩
    intro s2 ep2 heq
    simp [specRunAux] at heq
    obtain ⟨hs2, hep2⟩ := heq
    subst hs2 hep2
    exact hInv
  | cons b rest ih =>
    intro idx s ep hInv
    obtain ⟨sig, price⟩ := b
    obtain ⟨hmap, hpres⟩ := stepMaster idx sig price s ep hInv
    cases hstep : specStep idx sig price s ep with
    | error e =>
      rw [hstep] at hmap
      simp [Except.map] at hmap
      refine ⟨?_, ?_⟩
      · simp [runAux, specRunAux, hstep, hmap, Except.map]
      · intro s2 ep2 heq
        simp [specRunAux, hstep] at heq
    | ok p =>
      obtain ⟨sm, epm⟩ := p
      rw [hstep] at hmap
      simp [Except.map] at hmap
      have hInv2 : Inv sm epm := hpres sm epm hstep
      obtain ⟨ihmap, ihpres⟩ := ih (idx + 1) sm epm hInv2
      refine ⟨?_, ?_⟩
      · simp [runAux, specRunAux, hstep, hmap, ihmap]
      · intro s2 ep2 heq
        simp only [specRunAux, hstep] at heq
        exact ihpres s2 ep2 heq

lemma runAux_append (l1 l2 : List (ℤ × ℚ)) : ∀ (idx : ℕ) (s : SimState),
    runAux (l1 ++ l2) idx s =
      (runAux l1 idx s).bind fun s2 => runAux l2 (idx + l1.length) s2 := by
  induction l1 with
  | nil => intro idx s; simp [runAux, Except.bind]
  | cons b rest ih =>
    intro idx s
    obtain ⟨sig, price⟩ := b
    simp only [List.cons_append, runAux]
    cases codeStep idx sig price s with
    | error e => simp [Except.bind]
    | ok s2 =>
      show runAux (rest ++ l2) (idx + 1) s2 =
        (runAux rest (idx + 1) s2).bind fun s3 =>
          runAux l2 (idx + (rest.length + 1)) s3
      have harith : idx + (rest.length + 1) = (idx + 1) + rest.length := by omega
      rw [harith, ih (idx + 1) s2]

lemma runAux_single (idx : ℕ) (sig : ℤ) (price : ℚ) (s : SimState) :
    runAux [(sig, price)] idx s = codeStep idx sig price s := by
  simp only [runAux]
  cases codeStep idx sig price s <;> simp [runAux]

lemma stateAt_succ (cash0 : ℚ) (bars : List (ℤ × ℚ)) (k : ℕ)
    (hk : k < bars.length) :
    stateAt cash0 bars (k + 1) =
      (stateAt cash0 bars k).bind fun s =>
        codeStep k (bars.get ⟨k, hk⟩).1 (bars.get ⟨k, hk⟩).2 s := by
  unfold stateAt
  rw [List.take_succ, List.getElem?_eq_getElem hk, Option.toList_some,
    runAux_append]
  have hlen : (bars.take k).length = k := by
    simp [List.length_take, Nat.min_eq_left hk.le]
  rw [hlen]
  cases runAux (bars.take k) 0 (initState cash0) with
  | error e => simp [Except.bind]
  | ok s =>
    simp only [Except.bind]
    rw [Nat.zero_add, runAux_single]
    rfl

lemma stateAt_inv (cash0 : ℚ) (bars : List (ℤ × ℚ)) (k : ℕ) (s : SimState)
    (hs : stateAt cash0 bars k = .ok s) : ∃ ep, Inv s ep := by
  obtain ⟨hmap, hpres⟩ :=
    runMaster (bars.take k) 0 (initState cash0) 0 (initInv cash0)
  rw [stateAt, hmap] at hs
  cases hg : specRunAux (bars.take k) 0 (initState cash0) 0 with
  | error e => rw [hg] at hs; simp [Except.map] at hs
  | ok p =>
    obtain ⟨s2, ep2⟩ := p
    rw [hg] at hs
    simp [Except.map] at hs
    subst hs
    exact ⟨ep2, hpres s2 ep2 hg⟩

lemma codeStep_equity (idx : ℕ) (sig : ℤ) (price : ℚ) (s s2 : SimState)
    (h : codeStep idx sig price s = .ok s2) :
    s2.equity = s.equity ++ [(idx, preEquity s price)] := by
  by_cases h1 : sig = 1 ∧ s.position = 0
  · simp [codeStep, h1] at h
    rw [← h]
    simp [preEquity, h1.2]
  · by_cases h2 : sig = -1 ∧ 0 < s.position
    · cases hfb : findLastBuy s.history with
      | none => simp [codeStep, h1, h2, hfb] at h
      | some e =>
        simp [codeStep, h1, h2, hfb] at h
        rw [← h]
        simp [preEquity, h2.2]
    · simp [codeStep, h1, h2] at h
      rw [← h]
      simp [preEquity]

lemma runAux_equity (bars : List (ℤ × ℚ)) : ∀ (idx : ℕ) (s t : SimState),
    runAux bars idx s = .ok t →
    ∃ ext, t.equity = s.equity ++ ext ∧ ext.length = bars.length := by
  induction bars with
  | nil =>
    intro idx s t h
    simp [runAux] at h
    subst h
    exact ⟨[], by simp, rfl⟩
  | cons b rest ih =>
    intro idx s t h
    obtain ⟨sig, price⟩ := b
    simp only [runAux] at h
    cases hstep : codeStep idx sig price s with
    | error e => rw [hstep] at h; simp at h
    | ok s2 =>
      rw [hstep] at h
      simp only at h
      obtain ⟨ext, hext, hlen⟩ := ih (idx + 1) s2 t h
      refine ⟨(idx, preEquity s price) :: ext, ?_, by simp [hlen]⟩
      rw [hext, codeStep_equity idx sig price s s2 hstep]
      simp

/-! Claim theorems. -/

/-- C10: at every SELL the simulator emits, the entry trade found by
scanning the trade log backwards for the most recent BUY is exactly the
BUY that opened the currently held position, so the SELL record's
position_size equals the currently held size and its pnl equals
heldSize * exitPrice - heldSize * (that BUY's price): the
history-lookup simulation (`runPair`) produces exactly the same result
as the state machine that tracks the open position's entry price and
size explicitly (`specRunPair`), on every input. -/
theorem c10_history_lookup_refines_entry_state (cash0 : ℚ)
    (bars : List (ℤ × ℚ)) :
    runPair cash0 bars = specRunPair cash0 bars := by
  obtain ⟨hmap, _⟩ := runMaster bars 0 (initState cash0) 0 (initInv cash0)
  unfold runPair specRunPair
  rw [hmap]
  cases specRunAux bars 0 (initState cash0) 0 with
  | error e => simp [Except.map]
  | ok p => simp [Except.map]

/-- C1: for every price+signal series and positive initial cash, each
bar of the single pass acts as the claimed state machine: Long signal
while flat enters at the bar's close with `size = cash / price`,
`cash = 0` and a BUY record with `pnl = 0` (and `size * price` equals
the cash held at entry); Short signal while long exits with
`proceeds = size * price`, `pnl = proceeds - size * entryPrice` (the
entry price being the price of the most recent BUY, which opened the
position), `cash = proceeds`, `size = 0` and a SELL record with that
pnl (so cash afterwards equals `size_before * exitPrice`); any other
combination leaves cash, position and the trade log unchanged. -/
theorem c1_single_pass_state_machine (cash0 : ℚ) (hcash : 0 < cash0)
    (bars : List (ℤ × ℚ)) (k : ℕ) (hk : k < bars.length) (sig : ℤ) (price : ℚ)
    (hbar : bars.get ⟨k, hk⟩ = (sig, price)) (s : SimState)
    (hs : stateAt cash0 bars k = .ok s) :
    (sig = 1 → s.position = 0 → price ≠ 0 →
      stateAt cash0 bars (k + 1) =
        .ok ⟨0, s.cash / price,
             s.history ++ [⟨k, .BUY, price, s.cash / price, 0, 0, s.cash⟩],
             s.equity ++ [(k, s.cash)]⟩ ∧
      s.cash / price * price = s.cash) ∧
    (sig = -1 → 0 < s.position →
      ∃ e, findLastBuy s.history = some e ∧ e.position_size = s.position ∧
        stateAt cash0 bars (k + 1) =
          .ok ⟨s.position * price, 0,
               s.history ++
                 [⟨k, .SELL, price, s.position,
                   s.position * price - s.position * e.price,
                   s.position * price, s.position * price⟩],
               s.equity ++ [(k, s.position * price)]⟩) ∧
    (¬(sig = 1 ∧ s.position = 0) → ¬(sig = -1 ∧ 0 < s.position) →
      stateAt cash0 bars (k + 1) =
        .ok ⟨s.cash, s.position, s.history,
             s.equity ++ [(k, preEquity s price)]⟩) := by
  have hsucc := stateAt_succ cash0 bars k hk
  rw [hs, hbar] at hsucc
  simp only [Except.bind] at hsucc
  refine ⟨?_, ?_, ?_⟩
  · intro hsig hpos hp
    rw [hsucc]
    constructor
    · simp [codeStep, hsig, hpos]
    · exact div_mul_cancel₀ s.cash hp
  · intro hsig hpos
    obtain ⟨ep, hInv⟩ := stateAt_inv cash0 bars k s hs
    obtain ⟨e, he, hsize, hprice⟩ := hInv hpos
    refine ⟨e, he, hsize, ?_⟩
    rw [hsucc]
    simp [codeStep, hsig, hpos, he, hsize]
  · intro hn1 hn2
    rw [hsucc]
    simp [codeStep, hn1, hn2, preEquity]

lemma chain'_ne_concat (l : List Action) (a : Action)
    (hch : List.Chain' (· ≠ ·) l)
    (hlast : ∀ x, l.getLast? = some x → x ≠ a) :
    List.Chain' (· ≠ ·) (l ++ [a]) := by
  rw [List.chain'_append]
  refine ⟨hch, List.chain'_singleton a, ?_⟩
  intro x hx y hy
  simp at hy
  subst hy
  exact hlast x (by simpa using hx)

lemma codeStep_altInv (idx : ℕ) (sig : ℤ) (price : ℚ) (s s2 : SimState)
    (hpr : 0 < price) (hInv : AltInv s) (h : codeStep idx sig price s = .ok s2) :
    AltInv s2 := by
  obtain ⟨hch, hhead, hstate⟩ := hInv
  by_cases h1 : sig = 1 ∧ s.position = 0
  · rcases hstate with ⟨-, hcash, hlast⟩ | ⟨hposs, -⟩
    · simp [codeStep, h1] at h
      rw [← h]
      refine ⟨?_, ?_, Or.inr ⟨div_pos hcash hpr, ?_⟩⟩
      · show List.Chain' (· ≠ ·) ((s.history ++ [_]).map Trade.action)
        rw [List.map_append]
        refine chain'_ne_concat _ _ hch ?_
        intro x hx
        rw [List.getLast?_map] at hx
        cases hl : s.history.getLast? with
        | none => rw [hl] at hx; simp at hx
        | some t0 =>
          rw [hl] at hx
          simp at hx
          rw [← hx, hlast t0 hl]
          simp
      · show ∀ t, (s.history ++ [(⟨idx, .BUY, price, s.cash / price, 0, 0, s.cash⟩ : Trade)]).head? = some t → t.action = Action.BUY
        intro t ht
        cases hhist : s.history with
        | nil => rw [hhist] at ht; simp at ht; rw [← ht]
        | cons a as =>
          rw [hhist] at ht
          simp at ht
          rw [← ht]
          exact hhead a (by rw [hhist]; rfl)
      · show ∃ t, (s.history ++ [(⟨idx, .BUY, price, s.cash / price, 0, 0, s.cash⟩ : Trade)]).getLast? = some t ∧ t.action = Action.BUY
        exact ⟨_, List.getLast?_concat _, rfl⟩
    · exact absurd hposs (by rw [h1.2]; exact lt_irrefl 0)
  · by_cases h2 : sig = -1 ∧ 0 < s.position
    · rcases hstate with ⟨hflat, -, -⟩ | ⟨hposs, t0, hlast0, hact0⟩
      · exact absurd h2.2 (by rw [hflat]; exact lt_irrefl 0)
      · cases hfb : findLastBuy s.history with
        | none => simp [codeStep, h1, h2, hfb] at h
        | some e =>
          simp [codeStep, h1, h2, hfb] at h
          rw [← h]
          refine ⟨?_, ?_, Or.inl ⟨rfl, mul_pos hposs hpr, ?_⟩⟩
          · show List.Chain' (· ≠ ·) ((s.history ++ [_]).map Trade.action)
            rw [List.map_append]
            refine chain'_ne_concat _ _ hch ?_
            intro x hx
            rw [List.getLast?_map, hlast0] at hx
            simp at hx
            rw [← hx, hact0]
            simp
          · show ∀ t, (s.history ++ [(⟨idx, .SELL, price, e.position_size, s.position * price - e.position_size * e.price, s.position * price, s.position * price⟩ : Trade)]).head? = some t → t.action = Action.BUY
            intro t ht
            cases hhist : s.history with
            | nil => rw [hhist] at hlast0; simp at hlast0
            | cons a as =>
              rw [hhist] at ht
              simp at ht
              rw [← ht]
              exact hhead a (by rw [hhist]; rfl)
          · show ∀ t, (s.history ++ [(⟨idx, .SELL, price, e.position_size, s.position * price - e.position_size * e.price, s.position * price, s.position * price⟩ : Trade)]).getLast? = some t → t.action = Action.SELL
            intro t ht
            rw [List.getLast?_concat] at ht
            simp at ht
            rw [← ht]
    · simp [codeStep, h1, h2] at h
      rw [← h]
      exact ⟨hch, hhead, hstate⟩

lemma runAux_altInv (bars : List (ℤ × ℚ)) : ∀ (idx : ℕ) (s t : SimState),
    (∀ b ∈ bars, 0 < b.2) → AltInv s → runAux bars idx s = .ok t →
    AltInv t := by
  induction bars with
  | nil =>
    intro idx s t _ hInv h
    simp [runAux] at h
    subst h
    exact hInv
  | cons b rest ih =>
    intro idx s t hpos hInv h
    obtain ⟨sig, price⟩ := b
    simp only [runAux] at h
    cases hstep : codeStep idx sig price s with
    | error e => rw [hstep] at h; simp at h
    | ok s2 =>
      rw [hstep] at h
      simp only at h
      have hpr : 0 < price := hpos (sig, price) (by simp)
      exact ih (idx + 1) s2 t (fun b hb => hpos b (by simp [hb]))
        (codeStep_altInv idx sig price s s2 hpr hInv hstep) h

/-- C4: the simulator records exactly one equity point per input bar
(`len(equityCurve) == len(priceSeries)`), and the equity value of bar
`k` is computed from the state before bar `k`'s transition:
`position * close` when a position is held, `cash` otherwise. -/
theorem c4_equity_curve (cash0 : ℚ) (bars : List (ℤ × ℚ)) (r : PairResult)
    (hr : runPair cash0 bars = .ok r) :
    r.equity_curve.length = bars.length ∧
    ∀ k, ∀ hk : k < bars.length, ∀ s, stateAt cash0 bars k = .ok s →
      r.equity_curve.getD k (0, 0) =
        (k, if 0 < s.position then s.position * (bars.get ⟨k, hk⟩).2
            else s.cash) := by
  unfold runPair at hr
  cases hrun : runAux bars 0 (initState cash0) with
  | error e => rw [hrun] at hr; simp [Except.map] at hr
  | ok t =>
    rw [hrun] at hr
    simp [Except.map] at hr
    subst hr
    obtain ⟨ext, hext, hlen⟩ := runAux_equity bars 0 (initState cash0) t hrun
    simp [initState] at hext
    constructor
    · show t.equity.length = bars.length
      rw [hext, hlen]
    · intro k hk s hs
      have hsucc := stateAt_succ cash0 bars k hk
      rw [hs] at hsucc
      simp only [Except.bind] at hsucc
      have hsplit : runAux bars 0 (initState cash0) =
          (stateAt cash0 bars (k + 1)).bind fun s2 =>
            runAux (bars.drop (k + 1)) (0 + (bars.take (k + 1)).length) s2 := by
        conv_lhs => rw [← List.take_append_drop (k + 1) bars]
        rw [runAux_append]
        rfl
      rw [hrun] at hsplit
      cases hmid : stateAt cash0 bars (k + 1) with
      | error e =>
        rw [hmid] at hsplit
        simp [Except.bind] at hsplit
      | ok s2 =>
        rw [hmid] at hsplit
        simp only [Except.bind] at hsplit
        rw [hsucc] at hmid
        have heq2 := codeStep_equity _ _ _ _ _ hmid
        obtain ⟨ext2, hext2, _⟩ :=
          runAux_equity (bars.drop (k + 1)) _ s2 t hsplit.symm
        obtain ⟨ext1, hext1, hlen1⟩ :=
          runAux_equity (bars.take k) 0 (initState cash0) s hs
        simp [initState] at hext1
        have hk1 : s.equity.length = k := by
          rw [hext1, hlen1, List.length_take, Nat.min_eq_left hk.le]
        show t.equity.getD k (0, 0) = _
        rw [hext2, heq2, List.append_assoc, List.singleton_append,
          List.getD_append_right _ _ _ _ hk1.le]
        simp [hk1, preEquity]

/-- Witness for C4: a one-bar flat series with cash 7 yields a
one-point curve whose value is the pre-transition cash. -/
theorem c4_equity_curve_witness :
    ∃ r, runPair 7 [((0 : ℤ), (5 : ℚ))] = .ok r ∧
      r.equity_curve.length = 1 ∧ r.equity_curve.getD 0 (0, 0) = (0, 7) := by
  have hr : runPair 7 [((0 : ℤ), (5 : ℚ))] = .ok ⟨[], 7, [(0, 7)]⟩ := by
    norm_num [runPair, runAux, codeStep, initState, finalValue, Except.map]
  have h := c4_equity_curve 7 [((0 : ℤ), (5 : ℚ))] ⟨[], 7, [(0, 7)]⟩ hr
  refine ⟨⟨[], 7, [(0, 7)]⟩, hr, h.1, ?_⟩
  have h2 := h.2 0 (by norm_num) (initState 7) rfl
  rw [h2]
  norm_num [initState]

/-- Witness for C1: on the series `[(Long, 2)]` with cash 1000, bar 0
performs the claimed Flat-to-Long entry. -/
theorem c1_single_pass_state_machine_witness :
    stateAt 1000 [((1 : ℤ), (2 : ℚ))] 1 =
      .ok ⟨0, 500, [⟨0, .BUY, 2, 500, 0, 0, 1000⟩], [(0, 1000)]⟩ ∧
    (1000 : ℚ) / 2 * 2 = 1000 := by
  have h := (c1_single_pass_state_machine 1000 (by norm_num)
    [((1 : ℤ), (2 : ℚ))] 0 (by norm_num) 1 2 rfl (initState 1000) rfl).1
    rfl rfl (by norm_num)
  refine ⟨?_, h.2⟩
  rw [h.1]
  norm_num [initState]

lemma initAltInv (cash0 : ℚ) (hc : 0 < cash0) : AltInv (initState cash0) := by
  refine ⟨by simp [initState], by simp [initState], Or.inl ⟨rfl, hc, ?_⟩⟩
  simp [initState]

/-- C5 (amended): for positive initial cash and a series of positive
closes, the trade log strictly alternates BUY, SELL, BUY, SELL, ...
(no two consecutive equal actions) and its first trade, when any
exists, is a BUY. -/
theorem c5_trade_alternation (cash0 : ℚ) (bars : List (ℤ × ℚ))
    (r : PairResult) (hc : 0 < cash0) (hp : ∀ b ∈ bars, 0 < b.2)
    (hr : runPair cash0 bars = .ok r) :
    List.Chain' (· ≠ ·) (r.history.map Trade.action) ∧
    ∀ t, r.history.head? = some t → t.action = Action.BUY := by
  unfold runPair at hr
  cases hrun : runAux bars 0 (initState cash0) with
  | error e => rw [hrun] at hr; simp [Except.map] at hr
  | ok t =>
    rw [hrun] at hr
    simp [Except.map] at hr
    subst hr
    obtain ⟨h1, h2, _⟩ :=
      runAux_altInv bars 0 (initState cash0) t hp (initAltInv cash0 hc) hrun
    exact ⟨h1, h2⟩

/-- Witness for C5 (amended): a single Long bar at price 2 yields the
one-trade log `[BUY]`, alternating and starting with BUY. -/
theorem c5_trade_alternation_witness :
    ∃ r, runPair 1000 [((1 : ℤ), (2 : ℚ))] = .ok r ∧
      (List.Chain' (· ≠ ·) (r.history.map Trade.action) ∧
       ∀ t, r.history.head? = some t → t.action = Action.BUY) := by
  have hr : runPair 1000 [((1 : ℤ), (2 : ℚ))] =
      .ok ⟨[⟨0, .BUY, 2, 500, 0, 0, 1000⟩], 1000, [(0, 1000)]⟩ := by
    norm_num [runPair, runAux, codeStep, initState, finalValue, Except.map]
  exact ⟨_, hr, c5_trade_alternation 1000 [((1 : ℤ), (2 : ℚ))] _
    (by norm_num) (by norm_num) hr⟩

/-- Counterexample for C5 as stated (for every input series): on the
series `[(Long,2), (Short,0), (Long,5), (Long,7)]` with cash 1000 the
zero close at the SELL bar drains the cash to 0, after which each Long
signal appends a BUY of size 0 while the position stays 0, so the log
is `BUY, SELL, BUY, BUY` — two consecutive BUYs. -/
theorem c5_counterexample :
    (runPair 1000 [((1 : ℤ), (2 : ℚ)), (-1, 0), (1, 5), (1, 7)]).map
        (fun r => r.history.map Trade.action) =
      .ok [.BUY, .SELL, .BUY, .BUY] ∧
    ¬ List.Chain' (· ≠ ·) [Action.BUY, .SELL, .BUY, .BUY] := by
  constructor
  · norm_num [runPair, runAux, codeStep, initState, finalValue, findLastBuy,
      isBuy, Except.map, List.find?]
  · intro hch
    simp [List.chain'_cons] at hch

/-- C3: the concrete scenario — closes `[1,2,3,4,5,4,3,2,1]`, `fast=2`,
`slow=3`, initial cash 1000 — produces the signal sequence
`0,0,1,1,1,1,-1,-1,-1`, the pre-trade equity curve
`1000,1000,1000,4000/3,5000/3,4000/3,1000,1000,1000`, a trade log of
exactly one BUY at price 3 with size 1000/3 and pnl 0 followed by one
SELL at price 3 with size 1000/3 and pnl 0, final value 1000, and
totalReturn 0. -/
theorem c3_concrete_scenario :
    generateSignals 2 3 [1, 2, 3, 4, 5, 4, 3, 2, 1] =
      [0, 0, 1, 1, 1, 1, -1, -1, -1] ∧
    pipeline 2 3 1000 [1, 2, 3, 4, 5, 4, 3, 2, 1] =
      .ok ⟨[⟨2, .BUY, 3, 1000 / 3, 0, 0, 1000⟩,
            ⟨6, .SELL, 3, 1000 / 3, 0, 1000, 1000⟩],
           1000,
           [(0, 1000), (1, 1000), (2, 1000), (3, 4000 / 3), (4, 5000 / 3),
            (5, 4000 / 3), (6, 1000), (7, 1000), (8, 1000)]⟩ ∧
    totalReturn [1000, 1000, 1000, 4000 / 3, 5000 / 3, 4000 / 3, 1000,
      1000, 1000] = 0 := by
  refine ⟨?_, ?_, ?_⟩
  · norm_num [generateSignals, rollingMean, crossSignal, List.range_succ]
  · norm_num [pipeline, generateSignals, rollingMean, crossSignal,
      List.range_succ, runPair, runAux, codeStep, initState, finalValue,
      findLastBuy, isBuy, Except.map]
  · norm_num [totalReturn]

/-- C6 (amended): `SMACrossover.__init__` performs no validation at
all: construction always succeeds and stores the two windows
unchecked, for every pair of windows (including `fast >= slow` and
non-positive windows). -/
theorem c6_constructor_no_validation (fast slow : ℤ) :
    mkSMACrossover fast slow = .ok ⟨fast, slow⟩ := rfl

/-- Counterexample for C6 as stated: constructing with
`fast = 200 >= slow = 50` succeeds and raises nothing, contradicting
the claimed `ConfigError` at construction time. -/
theorem c6_counterexample :
    mkSMACrossover 200 50 = .ok ⟨200, 50⟩ ∧
    mkSMACrossover 200 50 ≠ .error () := by
  refine ⟨rfl, ?_⟩
  intro h
  simp [mkSMACrossover] at h

lemma codeStep_ok (idx : ℕ) (sig : ℤ) (price : ℚ) (s : SimState)
    (ep : ℚ) (hInv : Inv s ep) :
    ∃ s2, codeStep idx sig price s = .ok s2 := by
  by_cases h1 : sig = 1 ∧ s.position = 0
  · exact ⟨_, by simp [codeStep, h1]; rfl⟩
  · by_cases h2 : sig = -1 ∧ 0 < s.position
    · obtain ⟨e, he, -, -⟩ := hInv h2.2
      exact ⟨_, by simp [codeStep, h1, h2, he]; rfl⟩
    · exact ⟨_, by simp [codeStep, h1, h2]; rfl⟩

lemma runAux_ok (bars : List (ℤ × ℚ)) : ∀ (idx : ℕ) (s : SimState)
    (ep : ℚ), Inv s ep → ∃ t, runAux bars idx s = .ok t := by
  induction bars with
  | nil => exact fun idx s ep _ => ⟨s, by simp [runAux]⟩
  | cons b rest ih =>
    intro idx s ep hInv
    obtain ⟨sig, price⟩ := b
    obtain ⟨s2, hs2⟩ := codeStep_ok idx sig price s ep hInv
    obtain ⟨hmap, hpres⟩ := stepMaster idx sig price s ep hInv
    rw [hs2] at hmap
    cases hspec : specStep idx sig price s ep with
    | error e => rw [hspec] at hmap; simp [Except.map] at hmap
    | ok p =>
      obtain ⟨sm, epm⟩ := p
      rw [hspec] at hmap
      simp [Except.map] at hmap
      subst hmap
      obtain ⟨t, ht⟩ := ih (idx + 1) s2 epm (hpres s2 epm hspec)
      refine ⟨t, ?_⟩
      simp only [runAux, hs2]
      exact ht

/-- C7 (amended): the simulator performs no price validation and
raises no `InvalidPriceError` (the type does not exist in the code): a
non-positive close is processed like any other value — a BUY at a
negative close books a negative position, and a BUY at a close of
exactly 0 divides by zero in numpy floating point, booking an infinite
position with only a RuntimeWarning while the run continues.  What
does hold is the claim's second half: under the precondition that
every close is positive, no division by a non-positive price occurs —
the only division is a BUY's `cash / price` at a positive close — so
the simulation always completes normally. -/
theorem c7_no_price_validation (cash0 : ℚ) (bars : List (ℤ × ℚ))
    (hp : ∀ b ∈ bars, 0 < b.2) :
    ∃ r, runPair cash0 bars = .ok r := by
  obtain ⟨t, ht⟩ :=
    runAux_ok bars 0 (initState cash0) 0 (initInv cash0)
  refine ⟨⟨t.history, finalValue t bars, t.equity⟩, ?_⟩
  unfold runPair
  rw [ht]
  rfl

/-- Witness for C7 (amended): a two-bar all-positive series completes. -/
theorem c7_no_price_validation_witness :
    ∃ r, runPair 1000 [((1 : ℤ), (2 : ℚ)), (-1, 3)] = .ok r := by
  refine c7_no_price_validation 1000 [((1 : ℤ), (2 : ℚ)), (-1, 3)] ?_
  intro b hb
  simp at hb
  rcases hb with rfl | rfl <;> norm_num

/-- Counterexample for C7 as stated: a BUY bar whose close is `-1 ≤ 0`
is simulated without any error — the code divides by the negative
price, books a negative position of size `-1000`, and returns a normal
result instead of raising `InvalidPriceError`. -/
theorem c7_counterexample :
    runPair 1000 [((1 : ℤ), (-1 : ℚ))] =
      .ok ⟨[⟨0, .BUY, -1, -1000, 0, 0, 1000⟩], 1000, [(0, 1000)]⟩ := by
  norm_num [runPair, runAux, codeStep, initState, finalValue, Except.map]

/-- C9: a failure in one pair's simulation does not abort the sibling
pairs.  In fact the loop body of `TradingEnvironment.run` has no
reachable exception at all (there is no validation, numpy float
division by zero returns `inf` rather than raising, and the backward
BUY scan always finds an entry while a position is held), so for every
multi-pair run over the spec's domain of positive closes, the outcomes
of all pairs are reported together — one result per pair — and each
pair's reported result is exactly its standalone simulation,
independent of the content of every sibling pair. -/
theorem c9_per_pair_isolation (cash0 : ℚ) (pairs : List (List (ℤ × ℚ)))
    (hp : ∀ p ∈ pairs, ∀ b ∈ p, 0 < b.2) :
    ∃ rs, runAll cash0 pairs = .ok rs ∧ rs.length = pairs.length ∧
      ∀ i, i < pairs.length →
        runPair cash0 (pairs.getD i []) = .ok (rs.getD i ⟨[], 0, []⟩) := by
  induction pairs with
  | nil =>
    exact ⟨[], rfl, rfl, fun i hi => absurd hi (Nat.not_lt_zero i)⟩
  | cons p ps ih =>
    have hpair : ∃ r, runPair cash0 p = .ok r := by
      obtain ⟨t, ht⟩ := runAux_ok p 0 (initState cash0) 0 (initInv cash0)
      refine ⟨⟨t.history, finalValue t p, t.equity⟩, ?_⟩
      unfold runPair
      rw [ht]
      rfl
    obtain ⟨r, hr⟩ := hpair
    obtain ⟨rs, hrs, hlen, hidx⟩ := ih fun q hq b hb => hp q (by simp [hq]) b hb
    refine ⟨r :: rs, by simp [runAll, hr, hrs], by simp [hlen], ?_⟩
    intro i hi
    cases i with
    | zero => simpa using hr
    | succ n =>
      simp only [List.getD_cons_succ]
      exact hidx n (by simp at hi; omega)

/-- Witness for C9: a two-pair run (one trading pair, one flat pair)
reports both pairs' standalone results together. -/
theorem c9_per_pair_isolation_witness :
    ∃ rs, runAll 1000 [[((1 : ℤ), (2 : ℚ))], [((0 : ℤ), (5 : ℚ))]] = .ok rs ∧
      rs.length = 2 ∧
      ∀ i, i < 2 →
        runPair 1000 ([[((1 : ℤ), (2 : ℚ))], [((0 : ℤ), (5 : ℚ))]].getD i []) =
          .ok (rs.getD i ⟨[], 0, []⟩) := by
  refine c9_per_pair_isolation 1000
    [[((1 : ℤ), (2 : ℚ))], [((0 : ℤ), (5 : ℚ))]] ?_
  intro p hp b hb
  simp at hp
  rcases hp with rfl | rfl <;> simp at hb <;> rw [hb] <;> norm_num

lemma sum_drop_take (xs : List ℚ) (a : ℕ) : ∀ (b : ℕ), a + b ≤ xs.length →
    ((xs.drop a).take b).sum = ∑ k in Finset.range b, xs.getD (a + k) 0 := by
  intro b
  induction b with
  | zero => intro h; simp
  | succ n ihn =>
    intro h
    rw [List.take_succ, List.sum_append, ihn (by omega), Finset.sum_range_succ]
    congr 1
    have hlt : a + n < xs.length := by omega
    rw [List.getElem?_drop, List.getElem?_eq_getElem hlt]
    rw [List.getD_eq_getElem xs 0 hlt]
    simp

lemma rollingMean_getD (w : ℕ) (xs : List ℚ) (i : ℕ) (hi : i < xs.length)
    (hw : 0 < w) :
    (rollingMean w xs).getD i none =
      if w ≤ i + 1 then
        some ((∑ k in Finset.range w, xs.getD (i + 1 - w + k) 0) / w)
      else none := by
  have hlen : i < (rollingMean w xs).length := by
    simp [rollingMean, hi]
  rw [List.getD_eq_getElem _ _ hlen]
  unfold rollingMean
  rw [List.getElem_map, List.getElem_range]
  by_cases hwi : w ≤ i + 1
  · rw [if_pos ⟨hw, hwi⟩, if_pos hwi]
    have hsum := sum_drop_take xs (i + 1 - w) w (by omega)
    rw [hsum]
  · rw [if_neg (by tauto), if_neg hwi]

lemma generateSignals_getD (fast slow : ℕ) (closes : List ℚ) (i : ℕ)
    (hi : i < closes.length) :
    (generateSignals fast slow closes).getD i 0 =
      crossSignal ((rollingMean fast closes).getD i none)
        ((rollingMean slow closes).getD i none) := by
  have hlf : i < (rollingMean fast closes).length := by simp [rollingMean, hi]
  have hls : i < (rollingMean slow closes).length := by simp [rollingMean, hi]
  have hlz : i < (generateSignals fast slow closes).length := by
    simp [generateSignals, rollingMean, hi]
  rw [List.getD_eq_getElem _ _ hlz, List.getD_eq_getElem _ _ hlf,
    List.getD_eq_getElem _ _ hls]
  exact List.getElem_zipWith

/-- C2: for every price series and windows `0 < fast < slow`,
`fast_sma[i]` (resp. `slow_sma[i]`) is defined exactly when at least
`fast` (resp. `slow`) bars of history end at `i` inclusive — i.e. it is
undefined for `i < window - 1` — and then equals the arithmetic mean of
the closes over that trailing window; the per-bar signal is `1` exactly
when both averages are defined and `fast_sma > slow_sma`, `-1` exactly
when both are defined and `fast_sma < slow_sma`, and `0` exactly when
either average is undefined or the two are equal. -/
theorem c2_sma_and_signal_rule (closes : List ℚ) (fast slow : ℕ)
    (hf : 0 < fast) (hfs : fast < slow) (i : ℕ) (hi : i < closes.length) :
    ((rollingMean fast closes).getD i none =
      if fast ≤ i + 1 then
        some ((∑ k in Finset.range fast, closes.getD (i + 1 - fast + k) 0)
          / fast)
      else none) ∧
    ((rollingMean slow closes).getD i none =
      if slow ≤ i + 1 then
        some ((∑ k in Finset.range slow, closes.getD (i + 1 - slow + k) 0)
          / slow)
      else none) ∧
    ((generateSignals fast slow closes).getD i 0 = 1 ↔
      ∃ f s, (rollingMean fast closes).getD i none = some f ∧
        (rollingMean slow closes).getD i none = some s ∧ s < f) ∧
    ((generateSignals fast slow closes).getD i 0 = -1 ↔
      ∃ f s, (rollingMean fast closes).getD i none = some f ∧
        (rollingMean slow closes).getD i none = some s ∧ f < s) ∧
    ((generateSignals fast slow closes).getD i 0 = 0 ↔
      (rollingMean fast closes).getD i none = none ∨
      (rollingMean slow closes).getD i none = none ∨
      ∃ q, (rollingMean fast closes).getD i none = some q ∧
        (rollingMean slow closes).getD i none = some q) := by
  have hz := generateSignals_getD fast slow closes i hi
  refine ⟨rollingMean_getD fast closes i hi hf,
    rollingMean_getD slow closes i hi (hf.trans hfs), ?_, ?_, ?_⟩ <;>
    rw [hz] <;>
    cases hF : (rollingMean fast closes).getD i none with
  | none => simp [crossSignal]
  | some f =>
    cases hS : (rollingMean slow closes).getD i none with
    | none => simp [crossSignal]
    | some s =>
      rcases lt_trichotomy s f with hlt | heq | hgt
      · simp [crossSignal, hlt, not_lt_of_gt hlt, ne_of_gt hlt, ne_of_lt hlt]
      · subst heq
        simp [crossSignal, lt_irrefl]
      · simp [crossSignal, hgt, not_lt_of_gt hgt, ne_of_gt hgt,
          not_lt_of_gt, ne_of_lt hgt]

/-- Witness for C2: on closes `[1,2,3]` with `fast=2`, `slow=3`, bar 2
has `fast_sma = 5/2 > slow_sma = 2` and signal `1`. -/
theorem c2_sma_and_signal_rule_witness :
    (rollingMean 2 [1, 2, 3]).getD 2 none = some (5 / 2) ∧
    (generateSignals 2 3 [1, 2, 3]).getD 2 0 = 1 := by
  have h := c2_sma_and_signal_rule [1, 2, 3] 2 3 (by norm_num) (by norm_num) 2
    (by norm_num)
  have hfast : (rollingMean 2 [1, 2, 3]).getD 2 none = some (5 / 2) := by
    rw [h.1]
    norm_num [Finset.sum_range_succ]
  have hslow : (rollingMean 3 [1, 2, 3]).getD 2 none = some 2 := by
    rw [h.2.1]
    norm_num [Finset.sum_range_succ]
  refine ⟨hfast, ?_⟩
  exact (h.2.2.1).mpr ⟨5 / 2, 2, hfast, hslow, by norm_num⟩

lemma sampleVar_nonneg (xs : List ℚ) : 0 ≤ sampleVar xs := by
  unfold sampleVar
  rcases Nat.eq_zero_or_pos xs.length with h0 | hpos
  · rw [List.length_eq_zero] at h0
    subst h0
    simp
  · apply div_nonneg
    · apply List.sum_nonneg
      intro x hx
      obtain ⟨y, -, rfl⟩ := List.mem_map.mp hx
      exact sq_nonneg _
    · have h1 : (1 : ℚ) ≤ (xs.length : ℚ) := by exact_mod_cast hpos
      linarith

lemma pctChanges_getD (vals : List ℚ) (i : ℕ) (hi : i + 1 < vals.length) :
    (pctChanges vals).getD i 0 = vals.getD (i + 1) 0 / vals.getD i 0 - 1 := by
  have hlen : i < (pctChanges vals).length := by
    simp only [pctChanges, List.length_zipWith, List.length_tail]
    omega
  rw [List.getD_eq_getElem _ _ hlen,
    List.getD_eq_getElem _ _ (by omega : i + 1 < vals.length),
    List.getD_eq_getElem _ _ (by omega : i < vals.length)]
  unfold pctChanges
  rw [List.getElem_zipWith]
  rw [List.getElem_tail vals i (by simp only [List.length_tail]; omega)]

/-- C8 (amended): the reported Sharpe ratio is
`mean(return) / stdev(return) * sqrt(252 * 24 * 4)` over the per-bar
returns `return[i] = equity[i+1] / equity[i] - 1`, where the
annualization factor `252 * 24 * 4` is hard-coded in the source rather
than a configuration parameter; the result is the NaN sentinel
(`none`) — not an error — exactly when the sample standard deviation of
the returns is zero or fewer than two returns exist. -/
theorem c8_sharpe_formula (vals : List ℚ) :
    sharpe vals = sharpeWithPeriods (252 * 24 * 4) vals ∧
    (sharpe vals = none ↔
      (pctChanges vals).length < 2 ∨ sampleStd (pctChanges vals) = 0) ∧
    (∀ x, sharpe vals = some x →
      x = ((listMean (pctChanges vals) : ℚ) : ℝ) / sampleStd (pctChanges vals)
        * Real.sqrt (252 * 24 * 4)) ∧
    (∀ i, i + 1 < vals.length →
      (pctChanges vals).getD i 0 = vals.getD (i + 1) 0 / vals.getD i 0 - 1) := by
  have hstd0 : sampleStd (pctChanges vals) = 0 ↔
      sampleVar (pctChanges vals) = 0 := by
    unfold sampleStd
    rw [Real.sqrt_eq_zero (by exact_mod_cast sampleVar_nonneg _)]
    exact_mod_cast Iff.rfl
  refine ⟨rfl, ?_, ?_, fun i hi => pctChanges_getD vals i hi⟩
  · unfold sharpe
    by_cases hcond : (pctChanges vals).length < 2 ∨
        sampleVar (pctChanges vals) = 0
    · simp only [if_pos hcond, true_iff]
      rcases hcond with h | h
      · exact Or.inl h
      · exact Or.inr (hstd0.mpr h)
    · simp only [if_neg hcond]
      constructor
      · intro h
        exact absurd h (by simp)
      · intro h
        rcases h with h | h
        · exact absurd (Or.inl h) hcond
        · exact absurd (Or.inr (hstd0.mp h)) hcond
  · intro x hx
    unfold sharpe at hx
    by_cases hcond : (pctChanges vals).length < 2 ∨
        sampleVar (pctChanges vals) = 0
    · rw [if_pos hcond] at hx
      exact absurd hx (by simp)
    · rw [if_neg hcond] at hx
      simp only [Option.some.injEq] at hx
      exact hx.symm

/-- Witness for C8 (amended): on the curve `[1,2,3]` the code's Sharpe
agrees with the formula at the hard-coded factor, and the first return
is `equity[1]/equity[0] - 1`. -/
theorem c8_sharpe_formula_witness :
    sharpe [1, 2, 3] = sharpeWithPeriods (252 * 24 * 4) [1, 2, 3] ∧
    (pctChanges [1, 2, 3]).getD 0 0 =
      ([1, 2, 3] : List ℚ).getD 1 0 / ([1, 2, 3] : List ℚ).getD 0 0 - 1 := by
  have h := c8_sharpe_formula [1, 2, 3]
  exact ⟨h.1, h.2.2.2 0 (by norm_num)⟩

/-- Counterexample for C8 as stated: `periodsPerYear` is not a
configuration parameter — on the curve `[1,2,3]` the reported Sharpe
differs from the spec formula evaluated at the (valid, positive)
configuration `periodsPerYear = 1`, because the code always multiplies
by `sqrt(252 * 24 * 4)`. -/
theorem c8_counterexample :
    sharpe [1, 2, 3] ≠ sharpeWithPeriods 1 [1, 2, 3] := by
  have hrs : pctChanges [1, 2, 3] = [1, 1 / 2] := by
    norm_num [pctChanges]
  have hmean : listMean [1, 1 / 2] = 3 / 4 := by
    norm_num [listMean]
  have hvar : sampleVar [1, 1 / 2] = 1 / 8 := by
    norm_num [sampleVar, listMean]
  have hcond : ¬ (([1, (1 / 2 : ℚ)]).length < 2 ∨ sampleVar [1, 1 / 2] = 0) := by
    rw [hvar]
    norm_num
  have hstd : sampleStd [1, (1 / 2 : ℚ)] = Real.sqrt (1 / 8) := by
    rw [sampleStd, hvar]
    norm_num
  have h1 : sharpe [1, 2, 3] =
      some ((3 : ℝ) / 4 / Real.sqrt (1 / 8) * Real.sqrt (252 * 24 * 4)) := by
    unfold sharpe
    rw [hrs, if_neg hcond, hmean, hstd]
    norm_num
  have h2 : sharpeWithPeriods 1 [1, 2, 3] =
      some ((3 : ℝ) / 4 / Real.sqrt (1 / 8)) := by
    unfold sharpeWithPeriods
    rw [hrs, if_neg hcond, hmean, hstd]
    rw [Real.sqrt_one]
    norm_num
  intro h
  rw [h1, h2] at h
  simp only [Option.some.injEq] at h
  have ha : (0 : ℝ) < 3 / 4 / Real.sqrt (1 / 8) :=
    div_pos (by norm_num) (Real.sqrt_pos.mpr (by norm_num))
  have h3 : Real.sqrt (252 * 24 * 4) = 1 :=
    mul_left_cancel₀ (ne_of_gt ha) (h.trans (mul_one _).symm)
  have h4 : (252 * 24 * 4 : ℝ) = 1 := Real.sqrt_eq_one.mp h3
  norm_num at h4

end AlgoTrading
